import Mathlib
/-!
Verification development for the Android hardware/interfaces sample.

Two components are modelled:

* `WorkerThread` — the delayed-task single-worker executor declared in
  WorkerThread.h (src/unnamed/part_000, lines 244-269).  Only the class
  declaration is in the sources; the implementation (schedule, cancelAll,
  threadLoop, destructor) is modelled from the specification, as an
  explicit state machine over a virtual monotonic clock with a ghost
  execution log.  Thread interleaving is modelled by an explicit command
  trace: each command is one atomic critical section of the real code
  (an enqueue, one worker-loop iteration, a drain, a destruction).

* `BluetoothAudioProvider` — the AIDL provider implemented in
  BluetoothAudioProvider.cpp (src/unnamed/part_000, lines 97-212),
  translated directly from the source.  Binder plumbing (death
  recipients, session reports) are external side effects and are not
  part of the provider state the claims speak about.
-/

namespace WorkerThread

/-- Modelled from the spec: WorkerThread.cpp (the bodies of schedule,
cancelAll, threadLoop and the destructor) is not among the sources, only
the class declaration in WorkerThread.h is.  A pending task, following
the declaration (lines 255-259) and spec sections 3-4: an absolute
monotonic deadline, an action, and an optional cancellation callback.
Callables are opaque; they are represented by numeric identifiers, and
the ghost field tid identifies the task in the execution log. -/
structure Task where
  tid : Nat
  when : Nat
  act : Nat
  onCanceled : Option Nat
deriving Repr, DecidableEq

/-- Ghost log entry: a callable was invoked.  actionRun records the
task's deadline and the clock value at which the worker ran it. -/
inductive Event where
  | actionRun (tid : Nat) (when : Nat) (time : Nat)
  | cancelRun (tid : Nat)
deriving Repr, DecidableEq

/-- Modelled from the spec: executor state (spec section 3).  now is the
virtual monotonic clock; pending is the queue contents (the heap is
represented by its multiset of tasks plus the deterministic selection
popEarliest); terminating is the shutdown flag; nextTid numbers tasks in
order of enqueue; droppedShutdown and droppedNoCb are ghost records of
tasks discarded at destruction resp. dropped by cancelAll for lack of a
cancellation callback; log is the ghost record of callable invocations. -/
structure ExecState where
  now : Nat
  pending : List Task
  terminating : Bool
  nextTid : Nat
  droppedShutdown : List Nat
  droppedNoCb : List Nat
  log : List Event
deriving Repr, DecidableEq

/-- The freshly constructed executor: empty queue, not terminating. -/
def initState : ExecState :=
  { now := 0, pending := [], terminating := false, nextTid := 0,
    droppedShutdown := [], droppedNoCb := [], log := [] }

/-- Synchronous result of a schedule call (spec section 7). -/
inductive SchedStatus where
  | ok
  | invalidArgument
  | outOfMemory
deriving Repr, DecidableEq

/-- Modelled from the spec: both schedule overloads (spec section 4.1 and
section 7).  A null action or negative delay is rejected as
invalidArgument without enqueueing; an allocation failure while
inserting (allocFail, an oracle for the environment) is reported as
outOfMemory leaving prior state unchanged; otherwise the task is
enqueued with absolute deadline now + delay.  The overload without a
cancellation callback is the onCanceled = none case. -/
def schedule (s : ExecState) (action : Option Nat) (onCanceled : Option Nat)
    (delay : Int) (allocFail : Bool) : SchedStatus × ExecState :=
  match action with
  | none => (SchedStatus.invalidArgument, s)
  | some a =>
    if delay < 0 then (SchedStatus.invalidArgument, s)
    else if allocFail then (SchedStatus.outOfMemory, s)
    else
      (SchedStatus.ok,
        { s with
            pending := { tid := s.nextTid, when := s.now + delay.toNat,
                         act := a, onCanceled := onCanceled } :: s.pending,
            nextTid := s.nextTid + 1 })

/-- The cancelRun events cancelAll emits for a drained queue: one per
removed task that carried a cancellation callback. -/
def cancelEvts (p : List Task) : List Event :=
  p.filterMap fun t => t.onCanceled.map fun _ => Event.cancelRun t.tid

/-- Modelled from the spec: cancelAll (spec section 4.1).  Atomically
empties the pending queue; every removed task with an onCanceled
callback has it invoked before the call returns (the events are in the
log of the post-state); tasks without one are simply dropped (recorded
in the ghost field droppedNoCb). -/
def cancelAll (s : ExecState) : ExecState :=
  { s with
      pending := [],
      log := s.log ++ cancelEvts s.pending,
      droppedNoCb := s.droppedNoCb ++
        ((s.pending.filter fun t => t.onCanceled.isNone).map Task.tid) }

/-- Deterministic selection of the earliest-deadline task from the queue
(the top of the min-heap): returns it and the remaining queue.  Ties are
broken toward the front of the list; any single deterministic comparator
is acceptable per spec section 3. -/
def popEarliest : List Task → Option (Task × List Task)
  | [] => none
  | t :: ts =>
    match popEarliest ts with
    | none => some (t, [])
    | some (u, us) => if t.when ≤ u.when then some (t, ts) else some (u, t :: us)

/-- Modelled from the spec: one iteration of the worker loop (spec
section 4.1, steps 1-5).  If terminating, the worker exits without
touching the queue.  Otherwise it considers the earliest task: if its
deadline has passed it is popped and its action runs (off the lock);
if the queue is empty or the deadline is in the future the worker just
waits (a no-op on the state; the wait itself is the passage of virtual
time, the advance command). -/
def runDue (s : ExecState) : ExecState :=
  if s.terminating then s
  else
    match popEarliest s.pending with
    | none => s
    | some (t, rest) =>
      if t.when ≤ s.now then
        { s with pending := rest,
                 log := s.log ++ [Event.actionRun t.tid t.when s.now] }
      else s

/-- Passage of virtual monotonic time. -/
def advance (s : ExecState) (d : Nat) : ExecState :=
  { s with now := s.now + d }

/-- Modelled from the spec: the destructor (spec section 4.1).  Sets the
termination flag, wakes and joins the worker; every still-pending task
is discarded without either callable being invoked (the log is
untouched; the discarded tids go to the ghost field droppedShutdown). -/
def destroy (s : ExecState) : ExecState :=
  { s with
      terminating := true,
      pending := [],
      droppedShutdown := s.droppedShutdown ++ s.pending.map Task.tid }

/-- One atomic critical section of the system: an enqueue by some caller
thread, a worker-loop iteration, a drain, time passing, or destruction.
A trace of commands is one interleaving of the caller threads and the
worker. -/
inductive Cmd where
  | schedule (action : Option Nat) (onCanceled : Option Nat)
      (delay : Int) (allocFail : Bool)
  | advance (d : Nat)
  | runDue
  | cancelAll
  | destroy
deriving Repr, DecidableEq

/-- Apply one command to the executor state. -/
def step (s : ExecState) : Cmd → ExecState
  | Cmd.schedule a c d f => (schedule s a c d f).2
  | Cmd.advance d => advance s d
  | Cmd.runDue => runDue s
  | Cmd.cancelAll => cancelAll s
  | Cmd.destroy => destroy s

/-- Run a trace of commands from a state. -/
def run (s : ExecState) (cs : List Cmd) : ExecState :=
  cs.foldl step s

/-- A state is reachable if some interleaving produces it from the
freshly constructed executor. -/
def Reached (s : ExecState) : Prop :=
  ∃ cs : List Cmd, run initState cs = s

/-- How many times the action of task tid has been invoked. -/
def countAction (log : List Event) (tid : Nat) : Nat :=
  log.countP fun e =>
    match e with
    | Event.actionRun t _ _ => t == tid
    | Event.cancelRun _ => false

/-- How many times the cancellation callback of task tid has been
invoked. -/
def countCancel (log : List Event) (tid : Nat) : Nat :=
  log.countP fun e =>
    match e with
    | Event.actionRun _ _ _ => false
    | Event.cancelRun t => t == tid

/-- How many copies of task tid the queue holds. -/
def countPending (p : List Task) (tid : Nat) : Nat :=
  p.countP fun t => t.tid == tid

/-- Multiplicity of tid in a ghost tid list. -/
def countTid (l : List Nat) (tid : Nat) : Nat :=
  l.countP fun t => t == tid

/-- Whether the action of task tid has run at least once. -/
def didRun (log : List Event) (tid : Nat) : Bool :=
  log.any fun e =>
    match e with
    | Event.actionRun t _ _ => t == tid
    | Event.cancelRun _ => false

/-- Full accounting for one task: invocations of either callable, plus
presence in the queue, plus the two ghost discard records. -/
def tally (s : ExecState) (tid : Nat) : Nat :=
  countAction s.log tid + countCancel s.log tid + countPending s.pending tid +
    countTid s.droppedShutdown tid + countTid s.droppedNoCb tid

/-- The accounting invariant: every task ever enqueued is in exactly one
of the five ledgers, and unissued tids are in none. -/
def Inv (s : ExecState) : Prop :=
  ∀ tid : Nat, tally s tid = if tid < s.nextTid then 1 else 0

/-- Every recorded action execution happened no earlier than the task's
deadline. -/
def DeadlinesRespected (s : ExecState) : Prop :=
  ∀ tid w t : Nat, Event.actionRun tid w t ∈ s.log → w ≤ t

/-- Inductive invariant behind the deadline-order claim: either the two
tasks are both still queued with the later one not yet run, or the
earlier one has run, or the later one can never run (its tid is spent
and no queued task carries it). -/
def ranFirst (t1 t2 : Task) (u : ExecState) : Prop :=
  (t1 ∈ u.pending ∧ t2 ∈ u.pending ∧ didRun u.log t2.tid = false)
  ∨ didRun u.log t1.tid = true
  ∨ (didRun u.log t2.tid = false ∧ (∀ v ∈ u.pending, v.tid ≠ t2.tid) ∧
      t2.tid < u.nextTid)

/-- Number of action invocations recorded in the log, over all tasks. -/
def countActionEvents (log : List Event) : Nat :=
  log.countP fun e =>
    match e with
    | Event.actionRun _ _ _ => true
    | Event.cancelRun _ => false

/-- Demonstration trace for claim C1: one task scheduled through the
overload without a cancellation callback, then cancelAll. -/
def c1Trace : List Cmd :=
  [Cmd.schedule (some 7) none 5 false, Cmd.cancelAll]

/-- Demonstration trace for claim C2: three pending tasks, two of which
carry cancellation callbacks. -/
def c2Trace : List Cmd :=
  [Cmd.schedule (some 1) (some 11) 5 false,
   Cmd.schedule (some 2) none 7 false,
   Cmd.schedule (some 3) (some 13) 0 false]

/-- Demonstration trace for claim C3: a task with delay 37, the clock
advanced to 40, one worker iteration. -/
def c3Trace : List Cmd :=
  [Cmd.schedule (some 4) none 37 false, Cmd.advance 40, Cmd.runDue]

/-- Demonstration traces for claim C4: the later-deadline task is
submitted first, the earlier-deadline one second, then time passes and
the worker runs twice. -/
def c4SetupTrace : List Cmd :=
  [Cmd.schedule (some 1) none 10 false, Cmd.schedule (some 2) none 5 false]

def c4RunTrace : List Cmd :=
  [Cmd.advance 20, Cmd.runDue, Cmd.runDue]

end WorkerThread

namespace BluetoothAudioProvider

/-- Binder status values the provider returns (BluetoothAudioProvider.cpp
uses ndk::ScopedAStatus::ok() and
ndk::ScopedAStatus::fromExceptionCode(EX_ILLEGAL_ARGUMENT)). -/
inductive AStatus where
  | ok
  | exIllegalArgument
deriving Repr, DecidableEq

/-- The AIDL union AudioConfiguration, abstracted to its discriminator
tag (the only part the provider inspects, via getTag) and an opaque
payload standing for the union value. -/
structure AudioConfiguration where
  tag : Nat
  payload : Nat
deriving Repr, DecidableEq

/-- Descriptor of the data message queue written through the out
parameter of startSession.  Opaque contents; mkDefault is the
default-constructed DataMQDesc(). -/
structure DataMQDesc where
  desc : Nat
deriving Repr, DecidableEq

/-- The default-constructed DataMQDesc(). -/
def DataMQDesc.mkDefault : DataMQDesc := { desc := 0 }

/-- Session state of one provider instance (BluetoothAudioProvider.h
fields).  stack_iface_ is the shared_ptr to the IBluetoothAudioPort host
interface, modelled as an identifier with none for nullptr;
audio_config_ is the unique_ptr to the stored configuration, none for
nullptr; latency_modes_ is the stored latency-mode list, each mode an
identifier; session_type_ is fixed at construction. -/
structure ProviderState where
  stack_iface_ : Option Nat
  audio_config_ : Option AudioConfiguration
  latency_modes_ : List Nat
  session_type_ : Nat
deriving Repr, DecidableEq

/-- BluetoothAudioProvider::startSession (part_000 lines 104-128).  A
null host_if writes a default-constructed DataMQDesc to the out
parameter and returns EX_ILLEGAL_ARGUMENT before touching any field;
otherwise latency_modes_, audio_config_ and stack_iface_ are stored and
the subclass hook onSessionReady fills the out parameter (modelled by
the oracle argument readyDesc).  Returns (status, out parameter, new
state). -/
def startSession (s : ProviderState) (host_if : Option Nat)
    (audio_config : AudioConfiguration) (latencyModes : List Nat)
    (readyDesc : DataMQDesc) : AStatus × DataMQDesc × ProviderState :=
  match host_if with
  | none => (AStatus.exIllegalArgument, DataMQDesc.mkDefault, s)
  | some p =>
    (AStatus.ok, readyDesc,
      { s with
          latency_modes_ := latencyModes,
          audio_config_ := some audio_config,
          stack_iface_ := some p })

/-- BluetoothAudioProvider::endSession (part_000 lines 130-147).  The
session-report and unlink calls on the active branch are external side
effects; on either branch stack_iface_ and audio_config_ are set to
nullptr and ok is returned. -/
def endSession (s : ProviderState) : AStatus × ProviderState :=
  (AStatus.ok, { s with stack_iface_ := none, audio_config_ := none })

/-- BluetoothAudioProvider::updateAudioConfiguration (part_000 lines
179-199).  Rejected with EX_ILLEGAL_ARGUMENT when no session is active
(stack_iface_ or audio_config_ null) or when the new configuration's tag
differs from the stored one; otherwise the stored configuration is
replaced and ok returned (the ReportAudioConfigChanged call is an
external side effect). -/
def updateAudioConfiguration (s : ProviderState) (audio_config : AudioConfiguration) :
    AStatus × ProviderState :=
  match s.stack_iface_, s.audio_config_ with
  | none, _ => (AStatus.exIllegalArgument, s)
  | some _, none => (AStatus.exIllegalArgument, s)
  | some _, some stored =>
    if audio_config.tag ≠ stored.tag then (AStatus.exIllegalArgument, s)
    else (AStatus.ok, { s with audio_config_ := some audio_config })

end BluetoothAudioProvider

namespace WorkerThread

theorem popEarliest_nil : popEarliest [] = none := rfl

theorem popEarliest_cons_none {a : Task} {ts : List Task}
    (h : popEarliest ts = none) : popEarliest (a :: ts) = some (a, []) := by
  simp [popEarliest, h]

theorem popEarliest_cons_some {a u : Task} {ts us : List Task}
    (h : popEarliest ts = some (u, us)) :
    popEarliest (a :: ts) =
      if a.when ≤ u.when then some (a, ts) else some (u, a :: us) := by
  simp [popEarliest, h]

theorem popEarliest_eq_none {p : List Task} (h : popEarliest p = none) : p = [] := by
  cases p with
  | nil => rfl
  | cons a ts =>
    cases hts : popEarliest ts with
    | none => rw [popEarliest_cons_none hts] at h; simp at h
    | some pr =>
      obtain ⟨u, us⟩ := pr
      rw [popEarliest_cons_some hts] at h
      split at h <;> simp at h

theorem popEarliest_mem {p : List Task} {t : Task} {rest : List Task}
    (h : popEarliest p = some (t, rest)) : t ∈ p := by
  induction p generalizing t rest with
  | nil => simp [popEarliest] at h
  | cons a ts ih =>
    cases hts : popEarliest ts with
    | none =>
      rw [popEarliest_cons_none hts] at h
      simp at h
      simp [h.1]
    | some pr =>
      obtain ⟨u, us⟩ := pr
      rw [popEarliest_cons_some hts] at h
      split at h
      · simp at h
        simp [h.1]
      · simp at h
        obtain ⟨h1, _⟩ := h
        subst h1
        exact List.mem_cons_of_mem _ (ih hts)

theorem popEarliest_min {p : List Task} {t : Task} {rest : List Task}
    (h : popEarliest p = some (t, rest)) : ∀ u ∈ p, t.when ≤ u.when := by
  induction p generalizing t rest with
  | nil => simp [popEarliest] at h
  | cons a ts ih =>
    cases hts : popEarliest ts with
    | none =>
      rw [popEarliest_cons_none hts] at h
      simp at h
      obtain ⟨h1, _⟩ := h
      subst h1
      intro u hu
      rcases List.mem_cons.1 hu with h | h
      · subst h; exact le_refl _
      · exact absurd (popEarliest_eq_none hts ▸ h) (List.not_mem_nil u)
    | some pr =>
      obtain ⟨v, vs⟩ := pr
      rw [popEarliest_cons_some hts] at h
      split at h
      · rename_i hle
        simp at h
        obtain ⟨h1, _⟩ := h
        subst h1
        intro u hu
        rcases List.mem_cons.1 hu with h | h
        · subst h; exact le_refl _
        · exact le_trans hle (ih hts u h)
      · rename_i hlt
        simp at h
        obtain ⟨h1, _⟩ := h
        subst h1
        intro u hu
        rcases List.mem_cons.1 hu with h | h
        · subst h; omega
        · exact ih hts u h

theorem popEarliest_count {p : List Task} {t : Task} {rest : List Task}
    (h : popEarliest p = some (t, rest)) (tid : Nat) :
    countPending p tid = countPending rest tid + (if t.tid == tid then 1 else 0) := by
  induction p generalizing t rest with
  | nil => simp [popEarliest] at h
  | cons a ts ih =>
    cases hts : popEarliest ts with
    | none =>
      rw [popEarliest_cons_none hts] at h
      simp at h
      obtain ⟨h1, h2⟩ := h
      subst h1
      subst h2
      have hnil := popEarliest_eq_none hts
      subst hnil
      simp [countPending, List.countP_cons]
    | some pr =>
      obtain ⟨v, vs⟩ := pr
      rw [popEarliest_cons_some hts] at h
      split at h
      · simp at h
        obtain ⟨h1, h2⟩ := h
        subst h1
        subst h2
        simp [countPending, List.countP_cons]
      · simp at h
        obtain ⟨h1, h2⟩ := h
        subst h1
        subst h2
        have hvs := ih hts
        simp only [countPending, List.countP_cons] at hvs ⊢
        omega

theorem popEarliest_rest_subset {p : List Task} {t : Task} {rest : List Task}
    (h : popEarliest p = some (t, rest)) : ∀ u ∈ rest, u ∈ p := by
  induction p generalizing t rest with
  | nil => simp [popEarliest] at h
  | cons a ts ih =>
    cases hts : popEarliest ts with
    | none =>
      rw [popEarliest_cons_none hts] at h
      simp at h
      obtain ⟨_, h2⟩ := h
      subst h2
      intro u hu
      exact absurd hu (List.not_mem_nil u)
    | some pr =>
      obtain ⟨v, vs⟩ := pr
      rw [popEarliest_cons_some hts] at h
      split at h
      · simp at h
        obtain ⟨_, h2⟩ := h
        subst h2
        intro u hu
        exact List.mem_cons_of_mem _ hu
      · simp at h
        obtain ⟨_, h2⟩ := h
        subst h2
        intro u hu
        rcases List.mem_cons.1 hu with h | h
        · subst h; exact List.mem_cons_self _ _
        · exact List.mem_cons_of_mem _ (ih hts u h)

theorem popEarliest_mem_rest {p : List Task} {t : Task} {rest : List Task}
    (h : popEarliest p = some (t, rest)) : ∀ u ∈ p, u ≠ t → u ∈ rest := by
  induction p generalizing t rest with
  | nil => simp [popEarliest] at h
  | cons a ts ih =>
    cases hts : popEarliest ts with
    | none =>
      rw [popEarliest_cons_none hts] at h
      simp at h
      obtain ⟨h1, _⟩ := h
      intro u hu hne
      have hnil := popEarliest_eq_none hts
      subst hnil
      subst h1
      rcases List.mem_cons.1 hu with h | h
      · exact absurd h hne
      · exact absurd h (List.not_mem_nil u)
    | some pr =>
      obtain ⟨v, vs⟩ := pr
      rw [popEarliest_cons_some hts] at h
      split at h
      · simp at h
        obtain ⟨h1, h2⟩ := h
        subst h1
        subst h2
        intro u hu hne
        rcases List.mem_cons.1 hu with h | h
        · exact absurd h hne
        · exact h
      · simp at h
        obtain ⟨h1, h2⟩ := h
        subst h1
        subst h2
        intro u hu hne
        rcases List.mem_cons.1 hu with h | h
        · subst h; exact List.mem_cons_self _ _
        · exact List.mem_cons_of_mem _ (ih hts u h hne)

theorem cancelEvts_cons_none {a : Task} {ts : List Task} (h : a.onCanceled = none) :
    cancelEvts (a :: ts) = cancelEvts ts := by
  simp [cancelEvts, List.filterMap_cons, h]

theorem cancelEvts_cons_some {a : Task} {ts : List Task} {c : Nat}
    (h : a.onCanceled = some c) :
    cancelEvts (a :: ts) = Event.cancelRun a.tid :: cancelEvts ts := by
  simp [cancelEvts, List.filterMap_cons, h]

theorem countAction_cancelEvts (p : List Task) (tid : Nat) :
    countAction (cancelEvts p) tid = 0 := by
  induction p with
  | nil => rfl
  | cons a ts ih =>
    cases hc : a.onCanceled with
    | none => rw [cancelEvts_cons_none hc]; exact ih
    | some c =>
      rw [cancelEvts_cons_some hc]
      simpa [countAction, List.countP_cons] using ih

theorem cancel_split (p : List Task) (tid : Nat) :
    countPending p tid =
      countCancel (cancelEvts p) tid +
        countTid ((p.filter fun t => t.onCanceled.isNone).map Task.tid) tid := by
  induction p with
  | nil => rfl
  | cons a ts ih =>
    cases hc : a.onCanceled with
    | none =>
      rw [cancelEvts_cons_none hc]
      have hf : (a :: ts).filter (fun t => t.onCanceled.isNone) =
          a :: ts.filter (fun t => t.onCanceled.isNone) := by
        simp [List.filter_cons, hc]
      rw [hf]
      simp only [countPending, countTid, List.countP_cons, List.map_cons] at ih ⊢
      omega
    | some c =>
      rw [cancelEvts_cons_some hc]
      have hf : (a :: ts).filter (fun t => t.onCanceled.isNone) =
          ts.filter (fun t => t.onCanceled.isNone) := by
        simp [List.filter_cons, hc]
      rw [hf]
      simp only [countPending, countCancel, countTid, List.countP_cons] at ih ⊢
      omega

theorem countAction_nil (tid : Nat) : countAction [] tid = 0 := rfl

theorem countCancel_nil (tid : Nat) : countCancel [] tid = 0 := rfl

theorem countAction_append (l1 l2 : List Event) (tid : Nat) :
    countAction (l1 ++ l2) tid = countAction l1 tid + countAction l2 tid := by
  simp [countAction, List.countP_append]

theorem countCancel_append (l1 l2 : List Event) (tid : Nat) :
    countCancel (l1 ++ l2) tid = countCancel l1 tid + countCancel l2 tid := by
  simp [countCancel, List.countP_append]

theorem countTid_append (l1 l2 : List Nat) (tid : Nat) :
    countTid (l1 ++ l2) tid = countTid l1 tid + countTid l2 tid := by
  simp [countTid, List.countP_append]

theorem countAction_singleton (t w time tid : Nat) :
    countAction [Event.actionRun t w time] tid = if t = tid then 1 else 0 := by
  by_cases h : t = tid <;> simp [countAction, List.countP_cons, h]

theorem countCancel_singleton_action (t w time tid : Nat) :
    countCancel [Event.actionRun t w time] tid = 0 := by
  simp [countCancel, List.countP_cons]

theorem countPending_cons (a : Task) (p : List Task) (tid : Nat) :
    countPending (a :: p) tid = countPending p tid + (if a.tid = tid then 1 else 0) := by
  by_cases h : a.tid = tid <;> simp [countPending, List.countP_cons, h]

theorem countTid_map_tid (p : List Task) (tid : Nat) :
    countTid (p.map Task.tid) tid = countPending p tid := by
  rw [countTid, List.countP_map]
  rfl

theorem popEarliest_count_ite {p : List Task} {t : Task} {rest : List Task}
    (h : popEarliest p = some (t, rest)) (tid : Nat) :
    countPending p tid = countPending rest tid + (if t.tid = tid then 1 else 0) := by
  have hc := popEarliest_count h tid
  by_cases he : t.tid = tid <;> simp [he] at hc ⊢ <;> omega

theorem inv_schedule (s : ExecState) (a c : Option Nat) (d : Int) (f : Bool)
    (h : Inv s) : Inv (schedule s a c d f).2 := by
  cases a with
  | none => exact h
  | some av =>
    by_cases hd : d < 0
    · simp only [schedule, if_pos hd]
      exact h
    · by_cases hf : f
      · simp only [schedule, if_neg hd, if_pos hf]
        exact h
      · simp only [schedule, if_neg hd, if_neg hf]
        intro tid
        have ht := h tid
        simp only [tally] at ht ⊢
        dsimp only
        rw [countPending_cons]
        by_cases he : s.nextTid = tid
        · subst he
          rw [if_pos rfl, if_pos (Nat.lt_succ_self _)]
          rw [if_neg (Nat.lt_irrefl _)] at ht
          omega
        · rw [if_neg he]
          by_cases hlt : tid < s.nextTid
          · rw [if_pos hlt] at ht
            rw [if_pos (Nat.lt_succ_of_lt hlt)]
            omega
          · rw [if_neg hlt] at ht
            rw [if_neg (by omega : ¬ tid < s.nextTid + 1)]
            omega

theorem inv_advance (s : ExecState) (d : Nat) (h : Inv s) : Inv (advance s d) :=
  h

theorem inv_runDue (s : ExecState) (h : Inv s) : Inv (runDue s) := by
  unfold runDue
  split
  · exact h
  split
  · exact h
  rename_i t rest hp
  split
  · intro tid
    have ht := h tid
    have hc := popEarliest_count_ite hp tid
    simp only [tally] at ht ⊢
    dsimp only
    rw [countAction_append, countCancel_append, countAction_singleton,
      countCancel_singleton_action]
    omega
  · exact h

theorem inv_cancelAll (s : ExecState) (h : Inv s) : Inv (cancelAll s) := by
  intro tid
  have ht := h tid
  have hsplit := cancel_split s.pending tid
  have hca := countAction_cancelEvts s.pending tid
  simp only [tally, cancelAll] at ht ⊢
  rw [countAction_append, countCancel_append, countTid_append]
  simp only [countPending, List.countP_nil]
  omega

theorem inv_destroy (s : ExecState) (h : Inv s) : Inv (destroy s) := by
  intro tid
  have ht := h tid
  have hm := countTid_map_tid s.pending tid
  simp only [tally, destroy] at ht ⊢
  rw [countTid_append]
  simp only [countPending, List.countP_nil]
  simp only [countPending] at hm ht
  omega

theorem inv_step (s : ExecState) (c : Cmd) (h : Inv s) : Inv (step s c) := by
  cases c with
  | schedule a oc d f => exact inv_schedule s a oc d f h
  | advance d => exact inv_advance s d h
  | runDue => exact inv_runDue s h
  | cancelAll => exact inv_cancelAll s h
  | destroy => exact inv_destroy s h

theorem inv_initState : Inv initState := by
  intro tid
  simp [initState, tally, countAction, countCancel, countPending, countTid]

theorem inv_run (s : ExecState) (cs : List Cmd) (h : Inv s) : Inv (run s cs) := by
  induction cs generalizing s with
  | nil => exact h
  | cons c cs ih => exact ih (step s c) (inv_step s c h)

theorem inv_reached {s : ExecState} (h : Reached s) : Inv s := by
  obtain ⟨cs, rfl⟩ := h
  exact inv_run _ _ inv_initState

theorem reached_run {s : ExecState} (h : Reached s) (cs : List Cmd) :
    Reached (run s cs) := by
  obtain ⟨cs0, rfl⟩ := h
  refine ⟨cs0 ++ cs, ?_⟩
  simp [run, List.foldl_append]

theorem mem_cancelEvts {p : List Task} {e : Event} (h : e ∈ cancelEvts p) :
    ∃ tid, e = Event.cancelRun tid := by
  rw [cancelEvts, List.mem_filterMap] at h
  obtain ⟨a, _, ha⟩ := h
  cases hc : a.onCanceled with
  | none => rw [hc] at ha; simp at ha
  | some c =>
    rw [hc] at ha
    simp at ha
    exact ⟨a.tid, ha.symm⟩

theorem schedule_log (s : ExecState) (a c : Option Nat) (d : Int) (f : Bool) :
    (schedule s a c d f).2.log = s.log := by
  cases a with
  | none => rfl
  | some av =>
    simp only [schedule]
    split
    · rfl
    split <;> rfl

theorem deadlines_step (s : ExecState) (c : Cmd) (h : DeadlinesRespected s) :
    DeadlinesRespected (step s c) := by
  cases c with
  | schedule a oc d f =>
    intro tid w t hm
    rw [show (step s (Cmd.schedule a oc d f)).log = (schedule s a oc d f).2.log from rfl,
      schedule_log] at hm
    exact h tid w t hm
  | advance d => exact h
  | runDue =>
    show DeadlinesRespected (runDue s)
    unfold runDue
    split
    · exact h
    split
    · exact h
    rename_i tk rest hp
    split
    · rename_i hdue
      intro tid w t hm
      rcases List.mem_append.1 hm with hm | hm
      · exact h tid w t hm
      · simp at hm
        obtain ⟨_, h2, h3⟩ := hm
        subst h2
        subst h3
        exact hdue
    · exact h
  | cancelAll =>
    intro tid w t hm
    rcases List.mem_append.1 hm with hm | hm
    · exact h tid w t hm
    · obtain ⟨t2, he⟩ := mem_cancelEvts hm
      cases he
  | destroy => exact h

theorem deadlines_run (s : ExecState) (cs : List Cmd) (h : DeadlinesRespected s) :
    DeadlinesRespected (run s cs) := by
  induction cs generalizing s with
  | nil => exact h
  | cons c cs ih => exact ih (step s c) (deadlines_step s c h)

theorem deadlines_reached {s : ExecState} (h : Reached s) : DeadlinesRespected s := by
  obtain ⟨cs, rfl⟩ := h
  refine deadlines_run _ _ ?_
  intro tid w t hm
  exact absurd hm (List.not_mem_nil _)

theorem didRun_append (l1 l2 : List Event) (tid : Nat) :
    didRun (l1 ++ l2) tid = (didRun l1 tid || didRun l2 tid) := by
  simp [didRun, List.any_append]

theorem didRun_singleton (a w t tid : Nat) :
    didRun [Event.actionRun a w t] tid = (a == tid) := by
  simp [didRun]

theorem didRun_cancelEvts (p : List Task) (tid : Nat) :
    didRun (cancelEvts p) tid = false := by
  induction p with
  | nil => rfl
  | cons a ts ih =>
    cases hc : a.onCanceled with
    | none => rw [cancelEvts_cons_none hc]; exact ih
    | some c =>
      rw [cancelEvts_cons_some hc]
      simpa [didRun] using ih

theorem didRun_eq_false_of_countAction (log : List Event) (tid : Nat)
    (h : countAction log tid = 0) : didRun log tid = false := by
  rw [didRun, List.any_eq_false]
  intro e he hpe
  have hpos : 0 < countAction log tid := by
    rw [countAction, List.countP_pos_iff]
    exact ⟨e, he, hpe⟩
  omega

theorem countPending_pos_of_mem {p : List Task} {t : Task} (h : t ∈ p) :
    0 < countPending p t.tid := by
  rw [countPending, List.countP_pos_iff]
  exact ⟨t, h, by simp⟩

/-- Under the accounting invariant, a pending task has a tid already
issued, neither callable has run, and the queue holds it exactly once. -/
theorem pending_unique {s : ExecState} {t : Task} (hInv : Inv s) (h : t ∈ s.pending) :
    t.tid < s.nextTid ∧ countAction s.log t.tid = 0 ∧ countCancel s.log t.tid = 0 ∧
      countPending s.pending t.tid = 1 := by
  have h1 := hInv t.tid
  have h2 := countPending_pos_of_mem h
  simp only [tally] at h1
  by_cases hlt : t.tid < s.nextTid
  · rw [if_pos hlt] at h1
    exact ⟨hlt, by omega, by omega, by omega⟩
  · rw [if_neg hlt] at h1
    omega

theorem ranFirst_step {t1 t2 : Task} (hw : t1.when < t2.when) (u : ExecState)
    (hInv : Inv u) (hR : ranFirst t1 t2 u) (c : Cmd) : ranFirst t1 t2 (step u c) := by
  cases c with
  | schedule a oc d f =>
    show ranFirst t1 t2 (schedule u a oc d f).2
    cases a with
    | none => exact hR
    | some av =>
      by_cases hd : d < 0
      · simp only [schedule, if_pos hd]
        exact hR
      · by_cases hf : f
        · simp only [schedule, if_neg hd, if_pos hf]
          exact hR
        · simp only [schedule, if_neg hd, if_neg hf]
          rcases hR with ⟨h1, h2, h3⟩ | h | ⟨h1, h2, h3⟩
          · exact Or.inl ⟨List.mem_cons_of_mem _ h1, List.mem_cons_of_mem _ h2, h3⟩
          · exact Or.inr (Or.inl h)
          · refine Or.inr (Or.inr ⟨h1, ?_, ?_⟩)
            · intro v hv
              rcases List.mem_cons.1 hv with hv | hv
              · subst hv
                dsimp
                omega
              · exact h2 v hv
            · show t2.tid < u.nextTid + 1
              omega
  | advance d => exact hR
  | runDue =>
    show ranFirst t1 t2 (runDue u)
    unfold runDue
    split
    · exact hR
    split
    · exact hR
    rename_i tk rest hp
    split
    · rcases hR with ⟨h1, h2, h3⟩ | h | ⟨h1, h2, h3⟩
      · by_cases het : tk.tid = t1.tid
        · refine Or.inr (Or.inl ?_)
          show didRun (u.log ++ [Event.actionRun tk.tid tk.when u.now]) t1.tid = true
          rw [didRun_append, didRun_singleton]
          simp [het]
        · have hmin := popEarliest_min hp t1 h1
          have htne2 : tk.tid ≠ t2.tid := by
            intro he2
            have htkne : tk ≠ t2 := by
              intro hh
              subst hh
              omega
            have h5 := popEarliest_count_ite hp t2.tid
            have h6 : t2 ∈ rest := popEarliest_mem_rest hp t2 h2 (Ne.symm htkne)
            have h7 : 0 < countPending rest t2.tid := countPending_pos_of_mem h6
            have h8 := (pending_unique hInv h2).2.2.2
            rw [he2, if_pos rfl] at h5
            omega
          have ht1r : t1 ∈ rest :=
            popEarliest_mem_rest hp t1 h1 (fun hh => het (by rw [hh]))
          have ht2r : t2 ∈ rest :=
            popEarliest_mem_rest hp t2 h2 (fun hh => htne2 (by rw [hh]))
          refine Or.inl ⟨ht1r, ht2r, ?_⟩
          show didRun (u.log ++ [Event.actionRun tk.tid tk.when u.now]) t2.tid = false
          rw [didRun_append, didRun_singleton]
          simp [h3, htne2]
      · refine Or.inr (Or.inl ?_)
        show didRun (u.log ++ [Event.actionRun tk.tid tk.when u.now]) t1.tid = true
        rw [didRun_append]
        simp [h]
      · refine Or.inr (Or.inr ⟨?_, ?_, h3⟩)
        · show didRun (u.log ++ [Event.actionRun tk.tid tk.when u.now]) t2.tid = false
          rw [didRun_append, didRun_singleton]
          have hne := h2 tk (popEarliest_mem hp)
          simp [h1, hne]
        · intro v hv
          exact h2 v (popEarliest_rest_subset hp v hv)
    · exact hR
  | cancelAll =>
    show ranFirst t1 t2 (cancelAll u)
    have hdr : ∀ tid : Nat, didRun (cancelAll u).log tid = didRun u.log tid := by
      intro tid
      show didRun (u.log ++ cancelEvts u.pending) tid = _
      rw [didRun_append, didRun_cancelEvts]
      simp
    rcases hR with ⟨h1, h2, h3⟩ | h | ⟨h1, h2, h3⟩
    · refine Or.inr (Or.inr ⟨?_, ?_, (pending_unique hInv h2).1⟩)
      · rw [hdr]
        exact h3
      · intro v hv
        exact absurd hv (List.not_mem_nil v)
    · refine Or.inr (Or.inl ?_)
      rw [hdr]
      exact h
    · refine Or.inr (Or.inr ⟨?_, ?_, h3⟩)
      · rw [hdr]
        exact h1
      · intro v hv
        exact absurd hv (List.not_mem_nil v)
  | destroy =>
    show ranFirst t1 t2 (destroy u)
    rcases hR with ⟨h1, h2, h3⟩ | h | ⟨h1, h2, h3⟩
    · refine Or.inr (Or.inr ⟨h3, ?_, (pending_unique hInv h2).1⟩)
      intro v hv
      exact absurd hv (List.not_mem_nil v)
    · exact Or.inr (Or.inl h)
    · refine Or.inr (Or.inr ⟨h1, ?_, h3⟩)
      intro v hv
      exact absurd hv (List.not_mem_nil v)

theorem ranFirst_run {t1 t2 : Task} (hw : t1.when < t2.when) (u : ExecState)
    (hInv : Inv u) (hR : ranFirst t1 t2 u) (cs : List Cmd) :
    ranFirst t1 t2 (run u cs) := by
  induction cs generalizing u with
  | nil => exact hR
  | cons c cs ih => exact ih (step u c) (inv_step u c hInv) (ranFirst_step hw u hInv hR c)

theorem countActionEvents_append (l1 l2 : List Event) :
    countActionEvents (l1 ++ l2) = countActionEvents l1 + countActionEvents l2 := by
  simp [countActionEvents, List.countP_append]

theorem countActionEvents_cancelEvts (p : List Task) :
    countActionEvents (cancelEvts p) = 0 := by
  induction p with
  | nil => rfl
  | cons a ts ih =>
    cases hc : a.onCanceled with
    | none => rw [cancelEvts_cons_none hc]; exact ih
    | some c =>
      rw [cancelEvts_cons_some hc]
      simpa [countActionEvents, List.countP_cons] using ih

theorem length_cancelEvts (p : List Task) :
    (cancelEvts p).length = p.countP fun t => t.onCanceled.isSome := by
  induction p with
  | nil => rfl
  | cons a ts ih =>
    cases hc : a.onCanceled with
    | none =>
      rw [cancelEvts_cons_none hc]
      simp [List.countP_cons, hc, ih]
    | some c =>
      rw [cancelEvts_cons_some hc]
      simp [List.countP_cons, hc, ih]

/-- Claim C1 counterexample: the claimed invariant (exactly one of
action or onCanceled executes for every task ever enqueued, sole
exception tasks still pending at executor destruction) is false.  After
scheduling task 0 with no cancellation callback and calling cancelAll,
task 0 was enqueued (nextTid = 1), the executor was never destroyed
(terminating = false), the task is no longer pending, and yet neither
of its callables ever executed. -/
theorem claim_C1_counterexample :
    (run initState c1Trace).nextTid = 1 ∧
    (run initState c1Trace).terminating = false ∧
    countPending (run initState c1Trace).pending 0 = 0 ∧
    countAction (run initState c1Trace).log 0 +
      countCancel (run initState c1Trace).log 0 = 0 := by
  decide

/-- Claim C1 (amended): for every task ever enqueued, exactly one of the
following holds: its action ran (once), its cancellation callback ran
(once), it is still pending, it was discarded at executor destruction,
or it was dropped by cancelAll without having a cancellation callback.
In particular no task has a callable execute more than once, and a task
that is not pending and not in either dropped ledger had exactly one of
its two callables execute exactly once. -/
theorem claim_C1_exactly_once_amended (s : ExecState) (hs : Reached s) (tid : Nat)
    (h : tid < s.nextTid) :
    countAction s.log tid + countCancel s.log tid + countPending s.pending tid +
      countTid s.droppedShutdown tid + countTid s.droppedNoCb tid = 1 := by
  have ht := inv_reached hs tid
  simp only [tally] at ht
  rw [ht, if_pos h]

theorem claim_C1_witness :
    countAction (run initState c1Trace).log 0 +
      countCancel (run initState c1Trace).log 0 +
      countPending (run initState c1Trace).pending 0 +
      countTid (run initState c1Trace).droppedShutdown 0 +
      countTid (run initState c1Trace).droppedNoCb 0 = 1 :=
  claim_C1_exactly_once_amended (run initState c1Trace) ⟨c1Trace, rfl⟩ 0 (by decide)

/-- Claim C2: cancelAll empties the pending queue in one atomic step,
invokes no task's action, grows the invocation log by exactly M entries
where M counts the pending tasks that have a cancellation callback, and
each such task's cancellation callback is invoked exactly once; all of
these invocations are part of the call itself, so they have completed
when cancelAll returns. -/
theorem claim_C2_cancelAll_exact (s : ExecState) (hs : Reached s) :
    (cancelAll s).pending = [] ∧
    countActionEvents (cancelAll s).log = countActionEvents s.log ∧
    (cancelAll s).log.length =
      s.log.length + (s.pending.countP fun t => t.onCanceled.isSome) ∧
    ∀ t ∈ s.pending, t.onCanceled.isSome = true →
      countCancel (cancelAll s).log t.tid = countCancel s.log t.tid + 1 := by
  have hInv := inv_reached hs
  refine ⟨rfl, ?_, ?_, ?_⟩
  · show countActionEvents (s.log ++ cancelEvts s.pending) = countActionEvents s.log
    rw [countActionEvents_append, countActionEvents_cancelEvts]
    omega
  · show (s.log ++ cancelEvts s.pending).length = _
    rw [List.length_append, length_cancelEvts]
  · intro t ht hsome
    have h1 := cancel_split s.pending t.tid
    have h4 := (pending_unique hInv ht).2.2.2
    have hmem : Event.cancelRun t.tid ∈ cancelEvts s.pending := by
      rw [cancelEvts, List.mem_filterMap]
      refine ⟨t, ht, ?_⟩
      cases hc : t.onCanceled with
      | none => rw [hc] at hsome; simp at hsome
      | some c => simp [hc]
    have h3 : 0 < countCancel (cancelEvts s.pending) t.tid := by
      rw [countCancel, List.countP_pos_iff]
      exact ⟨Event.cancelRun t.tid, hmem, by simp⟩
    show countCancel (s.log ++ cancelEvts s.pending) t.tid = _
    rw [countCancel_append]
    omega

theorem claim_C2_witness :
    (cancelAll (run initState c2Trace)).pending = [] ∧
    countActionEvents (cancelAll (run initState c2Trace)).log =
      countActionEvents (run initState c2Trace).log ∧
    (cancelAll (run initState c2Trace)).log.length =
      (run initState c2Trace).log.length +
        ((run initState c2Trace).pending.countP fun t => t.onCanceled.isSome) ∧
    ∀ t ∈ (run initState c2Trace).pending, t.onCanceled.isSome = true →
      countCancel (cancelAll (run initState c2Trace)).log t.tid =
        countCancel (run initState c2Trace).log t.tid + 1 :=
  claim_C2_cancelAll_exact (run initState c2Trace) ⟨c2Trace, rfl⟩

/-- Claim C3: the worker never executes a task's action before the
task's absolute deadline: every action invocation recorded in any
reachable state's log carries an execution time no smaller than the
task's deadline, and schedule sets that deadline to the clock at the
schedule call plus the requested delay. -/
theorem claim_C3_no_early_execution (s : ExecState) (hs : Reached s)
    (tid w t : Nat) (hm : Event.actionRun tid w t ∈ s.log) : w ≤ t :=
  deadlines_reached hs tid w t hm

theorem claim_C3_witness : 37 ≤ 40 :=
  claim_C3_no_early_execution (run initState c3Trace) ⟨c3Trace, rfl⟩ 0 37 40
    (by decide)

/-- Claim C4: of two simultaneously pending tasks, the one with the
earlier deadline executes no later than the one with the later deadline,
regardless of submission order: along any continuation, whenever the
later-deadline task's action has run, the earlier-deadline task's
action has already run. -/
theorem claim_C4_deadline_order (s : ExecState) (cs : List Cmd) (t1 t2 : Task)
    (hs : Reached s) (h1 : t1 ∈ s.pending) (h2 : t2 ∈ s.pending)
    (hw : t1.when < t2.when) (hrun : didRun (run s cs).log t2.tid = true) :
    didRun (run s cs).log t1.tid = true := by
  have hInv := inv_reached hs
  have h0 : ranFirst t1 t2 s :=
    Or.inl ⟨h1, h2, didRun_eq_false_of_countAction _ _ (pending_unique hInv h2).2.1⟩
  have hf := ranFirst_run hw s hInv h0 cs
  rcases hf with ⟨_, _, h3⟩ | h | ⟨h3, _, _⟩
  · rw [hrun] at h3
    simp at h3
  · exact h
  · rw [hrun] at h3
    simp at h3

theorem claim_C4_witness :
    didRun (run (run initState c4SetupTrace) c4RunTrace).log 1 = true :=
  claim_C4_deadline_order (run initState c4SetupTrace) c4RunTrace
    { tid := 1, when := 5, act := 2, onCanceled := none }
    { tid := 0, when := 10, act := 1, onCanceled := none }
    ⟨c4SetupTrace, rfl⟩ (by decide) (by decide) (by decide) (by decide)

/-- Claim C5: destruction sets the termination flag, empties the queue
discarding every still-pending task into the shutdown ledger, invokes
neither callable of any of them (the invocation log is untouched), and
the joined worker performs no further work (a worker iteration after
destruction is a no-op, so the loop exits and the join returns). -/
theorem claim_C5_destroy_discards (s : ExecState) :
    (destroy s).terminating = true ∧
    (destroy s).pending = [] ∧
    (destroy s).log = s.log ∧
    (destroy s).droppedShutdown = s.droppedShutdown ++ s.pending.map Task.tid ∧
    runDue (destroy s) = destroy s := by
  refine ⟨rfl, rfl, rfl, rfl, ?_⟩
  simp [runDue, destroy]

/-- Claim C6: schedule called with a negative delay or a null task
callable is rejected synchronously as invalidArgument and the executor
state, in particular the pending queue, is returned unchanged. -/
theorem claim_C6_invalid_argument (s : ExecState) (action onc : Option Nat)
    (delay : Int) (f : Bool) (h : delay < 0 ∨ action = none) :
    schedule s action onc delay f = (SchedStatus.invalidArgument, s) := by
  rcases h with h | h
  · cases action with
    | none => rfl
    | some a => simp [schedule, h]
  · subst h
    rfl

theorem claim_C6_witness :
    schedule initState (some 3) none (-1) false =
      (SchedStatus.invalidArgument, initState) :=
  claim_C6_invalid_argument initState (some 3) none (-1) false (Or.inl (by decide))

/-- Claim C7: when allocation fails while inserting into the queue, a
valid schedule call fails synchronously with outOfMemory and the
executor state (pending queue, termination flag, everything else) is
returned unchanged. -/
theorem claim_C7_out_of_memory (s : ExecState) (a : Nat) (onc : Option Nat)
    (delay : Int) (h : 0 ≤ delay) :
    schedule s (some a) onc delay true = (SchedStatus.outOfMemory, s) := by
  simp [schedule, not_lt.2 h]

theorem claim_C7_witness :
    schedule initState (some 1) none 3 true = (SchedStatus.outOfMemory, initState) :=
  claim_C7_out_of_memory initState 1 none 3 (by decide)

end WorkerThread

namespace BluetoothAudioProvider

/-- Claim C8: startSession with a null host interface pointer returns
EX_ILLEGAL_ARGUMENT, writes a default-constructed DataMQDesc to the out
parameter, and leaves stack_iface_, audio_config_ and latency_modes_
unchanged. -/
theorem claim_C8_startSession_null (s : ProviderState) (cfg : AudioConfiguration)
    (modes : List Nat) (ready : DataMQDesc) :
    (startSession s none cfg modes ready).1 = AStatus.exIllegalArgument ∧
    (startSession s none cfg modes ready).2.1 = DataMQDesc.mkDefault ∧
    (startSession s none cfg modes ready).2.2.stack_iface_ = s.stack_iface_ ∧
    (startSession s none cfg modes ready).2.2.audio_config_ = s.audio_config_ ∧
    (startSession s none cfg modes ready).2.2.latency_modes_ = s.latency_modes_ :=
  ⟨rfl, rfl, rfl, rfl, rfl⟩

/-- Claim C9: endSession always returns ok and leaves stack_iface_ and
audio_config_ null afterward, whether or not a session was active, and a
second call returns the same status and the same state (idempotence on
the provider state). -/
theorem claim_C9_endSession_idempotent (s : ProviderState) :
    (endSession s).1 = AStatus.ok ∧
    (endSession s).2.stack_iface_ = none ∧
    (endSession s).2.audio_config_ = none ∧
    endSession ((endSession s).2) = (AStatus.ok, (endSession s).2) :=
  ⟨rfl, rfl, rfl, rfl⟩

/-- Claim C10: updateAudioConfiguration returns EX_ILLEGAL_ARGUMENT and
leaves the provider state (in particular the stored audio_config_)
unchanged when there is no active session (stack_iface_ or audio_config_
null) or when the new configuration's tag differs from the stored one;
otherwise it replaces the stored configuration with the argument and
returns ok. -/
theorem claim_C10_updateAudioConfiguration (s : ProviderState)
    (cfg : AudioConfiguration) :
    ((s.stack_iface_ = none ∨ s.audio_config_ = none) →
        updateAudioConfiguration s cfg = (AStatus.exIllegalArgument, s)) ∧
    (∀ old : AudioConfiguration, s.audio_config_ = some old →
        s.stack_iface_ ≠ none → cfg.tag ≠ old.tag →
        updateAudioConfiguration s cfg = (AStatus.exIllegalArgument, s)) ∧
    (∀ old : AudioConfiguration, s.audio_config_ = some old →
        s.stack_iface_ ≠ none → cfg.tag = old.tag →
        updateAudioConfiguration s cfg =
          (AStatus.ok, { s with audio_config_ := some cfg })) := by
  refine ⟨?_, ?_, ?_⟩
  · intro h
    rcases h with h | h
    · simp [updateAudioConfiguration, h]
    · cases hs : s.stack_iface_ with
      | none => simp [updateAudioConfiguration, hs]
      | some p => simp [updateAudioConfiguration, hs, h]
  · intro old hold hstack hne
    cases hs : s.stack_iface_ with
    | none => exact absurd hs hstack
    | some p => simp [updateAudioConfiguration, hs, hold, hne]
  · intro old hold hstack heq
    cases hs : s.stack_iface_ with
    | none => exact absurd hs hstack
    | some p => simp [updateAudioConfiguration, hs, hold, heq]

theorem claim_C10_witness :
    updateAudioConfiguration
        { stack_iface_ := none, audio_config_ := none, latency_modes_ := [],
          session_type_ := 0 }
        { tag := 0, payload := 0 } =
      (AStatus.exIllegalArgument,
        { stack_iface_ := none, audio_config_ := none, latency_modes_ := [],
          session_type_ := 0 }) :=
  (claim_C10_updateAudioConfiguration _ _).1 (Or.inl rfl)

end BluetoothAudioProvider
